import Mathlib

/- Shallow embedding of the admission-and-cache arbitration subsystem of the
prompt-wrapper service (src/models.rs, src/storage.rs, src/rate_limiter.rs,
src/preset.rs, src/handlers.rs).  Timestamps (chrono DateTime) are modelled as
Int, u32/u64 machine integers as Nat with explicit wrap where overflow matters,
HashMap/sled trees as association lists (their iteration order is unspecified
in the source; none of the theorems below depends on the enumeration order of
distinct keys except where a concrete one-element state makes it irrelevant). -/

/-- SayingSource from src/models.rs: provenance of a produced or cached answer. -/
inductive SayingSource
  | LLM
  | Cache
  | Database
deriving DecidableEq, Repr

/-- Display impl of SayingSource (src/models.rs): the string sent to callers. -/
def SayingSource.toStr : SayingSource → String
  | SayingSource.LLM => "llm"
  | SayingSource.Cache => "cache"
  | SayingSource.Database => "database"

/-- Saying from src/models.rs. -/
structure Saying where
  id : String
  content : String
  prompt : String
  created_at : Int
  source : SayingSource
  preset_id : Option String
deriving DecidableEq, Repr

/-- CacheKey from src/models.rs: identity for the global cache. -/
structure CacheKey where
  preset_id : Option String
  prompt : String
deriving DecidableEq, Repr

def CacheKey.new (preset_id : Option String) (prompt : String) : CacheKey :=
  ⟨preset_id, prompt⟩

def CacheKey.from_saying (s : Saying) : CacheKey :=
  ⟨s.preset_id, s.prompt⟩

/-- Association-list lookup, modelling HashMap::get / sled Tree::get. -/
def alookup {α β : Type} [DecidableEq α] : List (α × β) → α → Option β
  | [], _ => none
  | (k, v) :: rest, a => if k = a then some v else alookup rest a

/-- Association-list insert-or-replace, modelling HashMap::insert / sled
Tree::insert (replaces the value when the key is present). -/
def aset {α β : Type} [DecidableEq α] : List (α × β) → α → β → List (α × β)
  | [], a, b => [(a, b)]
  | (k, v) :: rest, a, b => if k = a then (a, b) :: rest else (k, v) :: aset rest a b

/-- One step of the stable descending insertion used to model Rust stable
sort_by on b.created_at.cmp(a.created_at): the new element goes after every
element whose created_at is greater or equal, keeping earlier equal elements
first, exactly as a stable sort keeps them. -/
def insertByCreatedDesc (s : Saying) : List Saying → List Saying
  | [] => [s]
  | x :: xs =>
    if s.created_at ≤ x.created_at then x :: insertByCreatedDesc s xs
    else s :: x :: xs

/-- Stable descending sort by created_at, modelling
sort_by (b.created_at.cmp on a.created_at) in src/storage.rs. -/
def sortByCreatedDesc (l : List Saying) : List Saying :=
  l.foldl (fun acc s => insertByCreatedDesc s acc) []

/-- MemoryStorage from src/storage.rs: per-user histories plus the global
cache, both HashMaps modelled as association lists. -/
structure MemoryStorage where
  sayings : List (String × List Saying)
  global_cache : List (CacheKey × Saying)
deriving DecidableEq, Repr

def MemoryStorage.new : MemoryStorage := ⟨[], []⟩

/-- MemoryStorage::save_saying (src/storage.rs 103-125): append to the user
history, re-sort newest first, and insert into the global cache only when the
source is not LLM. -/
def MemoryStorage.save_saying (st : MemoryStorage) (user_id : String)
    (saying : Saying) : MemoryStorage × Saying :=
  let user_sayings := (alookup st.sayings user_id).getD []
  let user_sayings := sortByCreatedDesc (user_sayings ++ [saying])
  let sayings := aset st.sayings user_id user_sayings
  let global_cache :=
    if saying.source ≠ SayingSource.LLM then
      aset st.global_cache (CacheKey.from_saying saying) saying
    else st.global_cache
  (⟨sayings, global_cache⟩, saying)

/-- MemoryStorage::get_last_saying (src/storage.rs 127-139): first element of
the user history when nonempty. -/
def MemoryStorage.get_last_saying (st : MemoryStorage) (user_id : String) :
    Option Saying :=
  match alookup st.sayings user_id with
  | some user_sayings => user_sayings.head?
  | none => none

/-- MemoryStorage::get_sayings (src/storage.rs 141-156): the user history
truncated to the limit. -/
def MemoryStorage.get_sayings (st : MemoryStorage) (user_id : String)
    (limit : Nat) : List Saying :=
  match alookup st.sayings user_id with
  | some user_sayings => user_sayings.take limit
  | none => []

/-- Predicate of the fallback scan in find_cached_saying: matching prompt,
matching preset id, and a non-LLM source. -/
def matchesCached (prompt : String) (preset_id : Option String) (s : Saying) :
    Prop :=
  s.prompt = prompt ∧ s.preset_id = preset_id ∧ s.source ≠ SayingSource.LLM

instance (prompt : String) (preset_id : Option String) (s : Saying) :
    Decidable (matchesCached prompt preset_id s) := by
  unfold matchesCached; infer_instance

/-- Inner loop of the fallback scan: first matching saying of one history. -/
def findMatch (prompt : String) (preset_id : Option String) :
    List Saying → Option Saying
  | [] => none
  | s :: rest =>
    if matchesCached prompt preset_id s then some s
    else findMatch prompt preset_id rest

/-- Outer loop of the MemoryStorage fallback scan over every user history. -/
def findInUsers (prompt : String) (preset_id : Option String) :
    List (String × List Saying) → Option Saying
  | [] => none
  | (_, l) :: rest =>
    match findMatch prompt preset_id l with
    | some s => some s
    | none => findInUsers prompt preset_id rest

/-- MemoryStorage::find_cached_saying (src/storage.rs 158-188): exact global
cache lookup first, then a linear scan over all user histories. -/
def MemoryStorage.find_cached_saying (st : MemoryStorage) (prompt : String)
    (preset_id : Option String) : Option Saying :=
  match alookup st.global_cache (CacheKey.new preset_id prompt) with
  | some cached => some cached
  | none => findInUsers prompt preset_id st.sayings

/-- The is_duplicate test of MemoryStorage::get_any_cached_sayings: some
already collected saying shares prompt and preset_id. -/
def hasKeyOf (l : List Saying) (s : Saying) : Bool :=
  l.any (fun t => decide (t.prompt = s.prompt ∧ t.preset_id = s.preset_id))

/-- One collection pass of MemoryStorage::get_any_cached_sayings: walk every
user history in order and push each saying whose membership in the LLM class
equals the pass flag and that is not yet a duplicate of the collection. -/
def memCollect (isLLMPass : Bool) (users : List (String × List Saying))
    (acc : List Saying) : List Saying :=
  users.foldl
    (fun a kv =>
      kv.2.foldl
        (fun a s =>
          if (decide (s.source = SayingSource.LLM)) = isLLMPass ∧
             hasKeyOf a s = false
          then a ++ [s] else a)
        a)
    acc

/-- MemoryStorage::get_any_cached_sayings (src/storage.rs 190-242): global
cache values, then non-LLM history entries, then LLM entries, each pass only
when still short of the limit; sorted newest first and truncated. -/
def MemoryStorage.get_any_cached_sayings (st : MemoryStorage) (limit : Nat) :
    List Saying :=
  let all := st.global_cache.map Prod.snd
  let all :=
    if all.length < limit then
      let all := memCollect false st.sayings all
      if all.length < limit then memCollect true st.sayings all else all
    else all
  (sortByCreatedDesc all).take limit

/-- SledStorage from src/storage.rs 245-468: the default tree (one record per
user id holding the serialized history) and the global_cache tree.  sled
iterates keys in the byte order of the serialized keys; the association-list
model fixes one enumeration order, and every theorem below either does not
depend on that order or uses a state with at most one entry per map. -/
structure SledStorage where
  db : List (String × List Saying)
  global_cache : List (CacheKey × Saying)
deriving DecidableEq, Repr

def SledStorage.new : SledStorage := ⟨[], []⟩

/-- SledStorage::get_sayings (src/storage.rs 302-321): deserialize the stored
history, sort newest first, truncate to the limit. -/
def SledStorage.get_sayings (st : SledStorage) (user_id : String)
    (limit : Nat) : List Saying :=
  match alookup st.db user_id with
  | some sayings => (sortByCreatedDesc sayings).take limit
  | none => []

/-- SledStorage::save_saying (src/storage.rs 259-288).  The source first reads
the history via get_sayings with limit usize::MAX; a Vec length can never
exceed usize::MAX, so that truncation is a no-op and the read amounts to
sorting the stored list.  Then push, re-sort, store, and insert into the
global cache tree when the source is not LLM. -/
def SledStorage.save_saying (st : SledStorage) (user_id : String)
    (saying : Saying) : SledStorage × Saying :=
  let sayings := sortByCreatedDesc ((alookup st.db user_id).getD [])
  let sayings := sortByCreatedDesc (sayings ++ [saying])
  let db := aset st.db user_id sayings
  let global_cache :=
    if saying.source ≠ SayingSource.LLM then
      aset st.global_cache (CacheKey.from_saying saying) saying
    else st.global_cache
  (⟨db, global_cache⟩, saying)

/-- SledStorage::get_last_saying (src/storage.rs 290-300): first entry of
get_sayings with limit 1. -/
def SledStorage.get_last_saying (st : SledStorage) (user_id : String) :
    Option Saying :=
  (st.get_sayings user_id 1).head?

/-- Fallback scan of SledStorage::find_cached_saying over the default tree,
skipping keys with the double-underscore internal marker. -/
def findInDb (prompt : String) (preset_id : Option String) :
    List (String × List Saying) → Option Saying
  | [] => none
  | (k, l) :: rest =>
    if k.startsWith "__" then findInDb prompt preset_id rest
    else
      match findMatch prompt preset_id l with
      | some s => some s
      | none => findInDb prompt preset_id rest

/-- SledStorage::find_cached_saying (src/storage.rs 323-367): global cache
tree lookup first, then the fallback scan over the default tree. -/
def SledStorage.find_cached_saying (st : SledStorage) (prompt : String)
    (preset_id : Option String) : Option Saying :=
  match alookup st.global_cache (CacheKey.new preset_id prompt) with
  | some cached => some cached
  | none => findInDb prompt preset_id st.db

/-- First loop of SledStorage::get_any_cached_sayings: push global cache
entries one by one and return early (flag true) as soon as the limit is
reached. -/
def sledCacheScan (limit : Nat) : List Saying → List Saying →
    List Saying × Bool
  | acc, [] => (acc, false)
  | acc, s :: rest =>
    let acc := acc ++ [s]
    if limit ≤ acc.length then (acc, true) else sledCacheScan limit acc rest

/-- Inner loop of the sled history passes: push entries of one history whose
membership in the LLM class equals the pass flag and whose cache key is not in
the seen set, breaking once the limit is reached. -/
def sledScanList (isLLMPass : Bool) (limit : Nat) :
    List Saying → List CacheKey → List Saying →
    List Saying × List CacheKey
  | acc, seen, [] => (acc, seen)
  | acc, seen, s :: rest =>
    if (decide (s.source = SayingSource.LLM)) = isLLMPass ∧
       ¬ (CacheKey.from_saying s ∈ seen) then
      let seen := seen ++ [CacheKey.from_saying s]
      let acc := acc ++ [s]
      if limit ≤ acc.length then (acc, seen)
      else sledScanList isLLMPass limit acc seen rest
    else sledScanList isLLMPass limit acc seen rest

/-- Outer loop of the sled history passes over the default tree, skipping
internal keys and breaking once the limit is reached. -/
def sledScanUsers (isLLMPass : Bool) (limit : Nat) :
    List Saying → List CacheKey → List (String × List Saying) →
    List Saying × List CacheKey
  | acc, seen, [] => (acc, seen)
  | acc, seen, (k, l) :: rest =>
    if k.startsWith "__" then sledScanUsers isLLMPass limit acc seen rest
    else
      let p := sledScanList isLLMPass limit acc seen l
      if limit ≤ p.1.length then p
      else sledScanUsers isLLMPass limit p.1 p.2 rest

/-- SledStorage::get_any_cached_sayings (src/storage.rs 369-467).  Note that
the seen-key set of the history passes starts empty: keys already collected
from the global cache are not in it, unlike the duplicate test of the memory
backend which checks the collected list itself. -/
def SledStorage.get_any_cached_sayings (st : SledStorage) (limit : Nat) :
    List Saying :=
  let scan := sledCacheScan limit [] (st.global_cache.map Prod.snd)
  if scan.2 then sortByCreatedDesc scan.1
  else
    let p := sledScanUsers false limit scan.1 [] st.db
    let acc :=
      if p.1.length < limit then (sledScanUsers true limit p.1 p.2 st.db).1
      else p.1
    sortByCreatedDesc acc

/-- StorageType from src/config.rs. -/
inductive StorageType
  | Memory
  | SQLite
  | Redis
  | Sled
deriving DecidableEq, Repr

/-- StorageConfig from src/config.rs. -/
structure StorageConfig where
  type_ : StorageType
  connection_string : String

/-- The backend variant held by Storage (src/storage.rs 15-18). -/
inductive StorageImpl
  | Memory (s : MemoryStorage)
  | Sled (s : SledStorage)
deriving DecidableEq, Repr

/-- Storage::new (src/storage.rs 21-47).  The outcome of
SledStorage::new(connection_string) is an I/O effect, abstracted as the
sledInit argument: some on success, none on an open failure.  SQLite and
Redis are unimplemented and fall back to memory with a logged warning; a Sled
open failure also falls back to memory.  The Rust function returns Self, not
Result, so construction never fails. -/
def Storage.new (config : StorageConfig) (sledInit : Option SledStorage) :
    StorageImpl :=
  match config.type_ with
  | StorageType.Memory => StorageImpl.Memory MemoryStorage.new
  | StorageType.SQLite => StorageImpl.Memory MemoryStorage.new
  | StorageType.Redis => StorageImpl.Memory MemoryStorage.new
  | StorageType.Sled =>
    match sledInit with
    | some storage => StorageImpl.Sled storage
    | none => StorageImpl.Memory MemoryStorage.new

/-- RateLimitConfig from src/config.rs: max_requests is a u32 and
window_seconds a u64. -/
structure RateLimitConfig where
  max_requests : Nat
  window_seconds : Nat

/-- RateLimitInfo from src/models.rs (remaining_requests is a u32). -/
structure RateLimitInfo where
  user_id : String
  remaining_requests : Nat
  reset_at : Int
deriving DecidableEq, Repr

/-- Wrapping u32 semantics of the expression max_requests - 1 used in
RateLimiter::check: for n = 0 the unsigned subtraction underflows and wraps
to 2 ^ 32 - 1. -/
def u32SubOne (n : Nat) : Nat :=
  (n + (2 ^ 32 - 1)) % 2 ^ 32

/-- The cast window_seconds as i64 inside Duration::seconds: a u64 value at or
above 2 ^ 63 reinterprets as a negative i64. -/
def asI64 (w : Nat) : Int :=
  if w % 2 ^ 64 < 2 ^ 63 then ((w % 2 ^ 64 : Nat) : Int)
  else ((w % 2 ^ 64 : Nat) : Int) - 2 ^ 64

/-- RateLimiter::check (src/rate_limiter.rs 25-67) with the call time made
explicit.  An expired window (now strictly after reset_at) is replaced by a
fresh window; otherwise a positive remaining count is decremented; otherwise
the store is untouched and the call reports false. -/
def RateLimiter.check (cfg : RateLimitConfig)
    (store : List (String × RateLimitInfo)) (user_id : String) (now : Int) :
    List (String × RateLimitInfo) × Bool :=
  match alookup store user_id with
  | some info =>
    if info.reset_at < now then
      (aset store user_id
        ⟨user_id, u32SubOne cfg.max_requests, now + asI64 cfg.window_seconds⟩,
       true)
    else if 0 < info.remaining_requests then
      (aset store user_id
        ⟨user_id, info.remaining_requests - 1, info.reset_at⟩, true)
    else (store, false)
  | none =>
    (aset store user_id
      ⟨user_id, u32SubOne cfg.max_requests, now + asI64 cfg.window_seconds⟩,
     true)

/-- RateLimiter::reset (src/rate_limiter.rs 69-82): install a full-quota
window unconditionally. -/
def RateLimiter.reset (cfg : RateLimitConfig)
    (store : List (String × RateLimitInfo)) (user_id : String) (now : Int) :
    List (String × RateLimitInfo) :=
  aset store user_id
    ⟨user_id, cfg.max_requests, now + asI64 cfg.window_seconds⟩

/-- RateLimiter::get_limit_info (src/rate_limiter.rs 84-87): read-only
snapshot. -/
def RateLimiter.get_limit_info (store : List (String × RateLimitInfo))
    (user_id : String) : Option RateLimitInfo :=
  alookup store user_id

/-- A run of consecutive check calls at the given times, returning the final
store and the list of results. -/
def checkRun (cfg : RateLimitConfig) (user_id : String) :
    List (String × RateLimitInfo) → List Int →
    List (String × RateLimitInfo) × List Bool
  | st, [] => (st, [])
  | st, t :: ts =>
    let step := RateLimiter.check cfg st user_id t
    let rest := checkRun cfg user_id step.1 ts
    (rest.1, step.2 :: rest.2)

/-- One rate-limiter operation of an interleaved history. -/
inductive RLOp
  | check (user_id : String) (now : Int)
  | reset (user_id : String) (now : Int)

def applyRLOp (cfg : RateLimitConfig)
    (store : List (String × RateLimitInfo)) : RLOp →
    List (String × RateLimitInfo)
  | RLOp.check u t => (RateLimiter.check cfg store u t).1
  | RLOp.reset u t => RateLimiter.reset cfg store u t

/-- The store reached from the empty store by a sequence of check and reset
calls. -/
def runRLOps (cfg : RateLimitConfig) (ops : List RLOp) :
    List (String × RateLimitInfo) :=
  ops.foldl (applyRLOp cfg) []

/-- Preset from src/preset.rs. -/
structure Preset where
  id : String
  name : String
  description : String
  tags : List String
  button_text : String
  loading_text : String
  instruction_text : String
  system_prompt : String
  user_prompts : List String
deriving DecidableEq, Repr

/-- PresetSelection from src/preset.rs: the per-user sticky pin. -/
structure PresetSelection where
  preset : Preset
  selected_at : Int
  expires_at : Int
deriving DecidableEq, Repr

/-- Presets from src/preset.rs: the catalog plus the per-user selections. -/
structure Presets where
  presets : List Preset
  selections : List (String × PresetSelection)
deriving DecidableEq, Repr

/-- Presets::random_preset (src/preset.rs 83-90).  SliceRandom::choose draws a
uniformly random element; the draw is abstracted by the pick argument as an
index reduced modulo the catalog length, none exactly when the catalog is
empty (the error branch). -/
def Presets.random_preset (ps : Presets) (pick : Nat) : Option Preset :=
  ps.presets.get? (pick % ps.presets.length)

/-- The select-and-pin tail of Presets::get_or_select_preset: draw a preset,
store a fresh selection with expires_at equal to the supplied window reset
time, and return the preset. -/
def Presets.selectNew (ps : Presets) (user_id : String) (reset_at now : Int)
    (pick : Nat) : Option (Preset × Presets) :=
  match ps.random_preset pick with
  | none => none
  | some preset =>
    some (preset,
      { ps with
        selections := aset ps.selections user_id ⟨preset, now, reset_at⟩ })

/-- Presets::get_or_select_preset (src/preset.rs 60-81), with the clock and
the random draw made explicit.  An unexpired pin (expires_at strictly after
now) is returned unchanged without touching the state; otherwise a new preset
is drawn and pinned. -/
def Presets.get_or_select_preset (ps : Presets) (user_id : String)
    (reset_at now : Int) (pick : Nat) : Option (Preset × Presets) :=
  match alookup ps.selections user_id with
  | some selection =>
    if now < selection.expires_at then some (selection.preset, ps)
    else ps.selectNew user_id reset_at now pick
  | none => ps.selectNew user_id reset_at now pick

/-- SayingResponse from src/handlers.rs: the wire shape returned to the
caller; source is the display string of the saying source. -/
structure SayingResponse where
  id : String
  content : String
  created_at : Int
  source : String
deriving DecidableEq, Repr

/-- From Saying for SayingResponse (src/handlers.rs 120-129): all fields are
copied verbatim; source becomes its display string. -/
def SayingResponse.from_saying (s : Saying) : SayingResponse :=
  ⟨s.id, s.content, s.created_at, s.source.toStr⟩

/-- The cooldown test of create_saying (src/handlers.rs 204-207): rate limit
info exists and its remaining_requests is zero. -/
def isRateLimited (rl_store : List (String × RateLimitInfo))
    (user_id : String) : Bool :=
  match RateLimiter.get_limit_info rl_store user_id with
  | some info => decide (info.remaining_requests = 0)
  | none => false

/-- The cooldown branch of create_saying (src/handlers.rs 209-235), run over
the memory backend: when the user is rate limited, serve the last saying of
the user, else the first entry of get_any_cached_sayings 1, in both cases as
an early return that performs no save (the storage comes back unchanged).
none means the branch falls through to the normal flow. -/
def cooldownServe (rl_store : List (String × RateLimitInfo))
    (storage : MemoryStorage) (user_id : String) :
    Option (SayingResponse × MemoryStorage) :=
  if isRateLimited rl_store user_id then
    match storage.get_last_saying user_id with
    | some last_saying => some (SayingResponse.from_saying last_saying, storage)
    | none =>
      match storage.get_any_cached_sayings 1 with
      | [] => none
      | s :: _ => some (SayingResponse.from_saying s, storage)
  else none

/-- The memory-backend state reached from the empty store by a sequence of
record operations. -/
def memOfRecords (rs : List (String × Saying)) : MemoryStorage :=
  rs.foldl (fun st r => (st.save_saying r.1 r.2).1) MemoryStorage.new

/-- The sled-backend state reached from the empty store by the same sequence
of record operations. -/
def sledOfRecords (rs : List (String × Saying)) : SledStorage :=
  rs.foldl (fun st r => (st.save_saying r.1 r.2).1) SledStorage.new

/- Association-list lemmas. -/

theorem alookup_aset {α β : Type} [DecidableEq α] (m : List (α × β))
    (k k' : α) (v : β) :
    alookup (aset m k v) k' = if k = k' then some v else alookup m k' := by
  induction m with
  | nil => simp [aset, alookup]
  | cons p rest ih =>
    by_cases h : p.1 = k
    · simp only [aset, alookup, h, if_pos rfl]
      by_cases h2 : k = k' <;> simp [alookup, h2]
    · simp only [aset, alookup, if_neg h]
      by_cases h2 : p.1 = k'
      · subst h2
        have : ¬ k = p.1 := fun hk => h hk.symm
        simp [alookup, this]
      · simp [alookup, h2, ih]

theorem alookup_mem {α β : Type} [DecidableEq α] {m : List (α × β)} {k : α}
    {v : β} (h : alookup m k = some v) : (k, v) ∈ m := by
  induction m with
  | nil => simp [alookup] at h
  | cons p rest ih =>
    by_cases h1 : p.1 = k
    · simp only [alookup] at h
      rw [if_pos h1] at h
      injection h with h2
      have hp : (k, v) = p := by
        cases p
        simp only [Prod.mk.injEq]
        exact ⟨h1.symm, h2.symm⟩
      rw [hp]
      exact List.mem_cons_self _ _
    · simp only [alookup] at h
      rw [if_neg h1] at h
      exact List.mem_cons_of_mem _ (ih h)

theorem mem_aset {α β : Type} [DecidableEq α] {m : List (α × β)} {k : α}
    {v : β} {p : α × β} (h : p ∈ aset m k v) : p = (k, v) ∨ p ∈ m := by
  induction m with
  | nil => simpa [aset] using h
  | cons q rest ih =>
    by_cases h1 : q.1 = k
    · simp only [aset, h1, if_pos rfl] at h
      rcases List.mem_cons.1 h with h2 | h2
      · exact Or.inl h2
      · exact Or.inr (List.mem_cons_of_mem _ h2)
    · simp only [aset, if_neg h1] at h
      rcases List.mem_cons.1 h with h2 | h2
      · exact Or.inr (h2 ▸ List.mem_cons_self _ _)
      · rcases ih h2 with h3 | h3
        · exact Or.inl h3
        · exact Or.inr (List.mem_cons_of_mem _ h3)

theorem alookup_isSome_aset {α β : Type} [DecidableEq α] {m : List (α × β)}
    {k' : α} (k : α) (v : β) (h : (alookup m k').isSome) :
    (alookup (aset m k v) k').isSome := by
  rw [alookup_aset]
  by_cases h1 : k = k' <;> simp [h1, h]

/- Sorting lemmas. -/

/-- Newest-first order of a history list: every earlier entry has a
created_at at or after every later entry. -/
def SortedDesc (l : List Saying) : Prop :=
  List.Pairwise (fun a b => b.created_at ≤ a.created_at) l

theorem mem_insertByCreatedDesc {s t : Saying} {l : List Saying} :
    t ∈ insertByCreatedDesc s l ↔ t = s ∨ t ∈ l := by
  induction l with
  | nil => simp [insertByCreatedDesc]
  | cons x xs ih =>
    by_cases h : s.created_at ≤ x.created_at
    · simp only [insertByCreatedDesc, if_pos h, List.mem_cons, ih]
      tauto
    · simp [insertByCreatedDesc, if_neg h]

theorem sortedDesc_insert {s : Saying} : ∀ {l : List Saying}, SortedDesc l →
    SortedDesc (insertByCreatedDesc s l) := by
  intro l
  induction l with
  | nil =>
    intro _
    simp [insertByCreatedDesc, SortedDesc]
  | cons x xs ih =>
    intro h
    rcases (List.pairwise_cons.1 h) with ⟨hx, hxs⟩
    by_cases hle : s.created_at ≤ x.created_at
    · simp only [insertByCreatedDesc, if_pos hle]
      refine List.pairwise_cons.2 ⟨?_, ih hxs⟩
      intro b hb
      rcases mem_insertByCreatedDesc.1 hb with h1 | h1
      · exact h1 ▸ hle
      · exact hx b h1
    · simp only [insertByCreatedDesc, if_neg hle]
      refine List.pairwise_cons.2 ⟨?_, h⟩
      intro b hb
      rcases List.mem_cons.1 hb with h1 | h1
      · exact h1 ▸ le_of_lt (lt_of_not_le hle)
      · exact le_trans (hx b h1) (le_of_lt (lt_of_not_le hle))

theorem mem_sortFold (l : List Saying) :
    ∀ (acc : List Saying) (t : Saying),
      (t ∈ l.foldl (fun acc s => insertByCreatedDesc s acc) acc ↔
        t ∈ acc ∨ t ∈ l) := by
  induction l with
  | nil => intro acc t; simp
  | cons s rest ih =>
    intro acc t
    simp only [List.foldl_cons]
    rw [ih, mem_insertByCreatedDesc]
    simp only [List.mem_cons]
    tauto

theorem mem_sortByCreatedDesc {t : Saying} {l : List Saying} :
    t ∈ sortByCreatedDesc l ↔ t ∈ l := by
  unfold sortByCreatedDesc
  rw [mem_sortFold]
  simp

theorem sortedDesc_sortFold (l : List Saying) :
    ∀ (acc : List Saying), SortedDesc acc →
      SortedDesc (l.foldl (fun acc s => insertByCreatedDesc s acc) acc) := by
  induction l with
  | nil => intro acc h; simpa using h
  | cons s rest ih =>
    intro acc h
    simpa using ih _ (sortedDesc_insert h)

theorem sortedDesc_sortByCreatedDesc (l : List Saying) :
    SortedDesc (sortByCreatedDesc l) :=
  sortedDesc_sortFold l [] List.Pairwise.nil

theorem insertByCreatedDesc_eq_append {s : Saying} {acc : List Saying}
    (h : ∀ x ∈ acc, s.created_at ≤ x.created_at) :
    insertByCreatedDesc s acc = acc ++ [s] := by
  induction acc with
  | nil => simp [insertByCreatedDesc]
  | cons x xs ih =>
    have hx : s.created_at ≤ x.created_at := h x (List.mem_cons_self _ _)
    simp only [insertByCreatedDesc, if_pos hx, List.cons_append,
      List.cons.injEq, true_and]
    exact ih (fun y hy => h y (List.mem_cons_of_mem _ hy))

theorem sortFold_eq_append (l : List Saying) :
    ∀ (acc : List Saying), SortedDesc (acc ++ l) →
      l.foldl (fun acc s => insertByCreatedDesc s acc) acc = acc ++ l := by
  induction l with
  | nil => intro acc _; simp
  | cons s rest ih =>
    intro acc h
    have hall : ∀ x ∈ acc, s.created_at ≤ x.created_at := by
      intro x hx
      have := (List.pairwise_append.1 h).2.2 x hx s (List.mem_cons_self _ _)
      exact this
    simp only [List.foldl_cons, insertByCreatedDesc_eq_append hall]
    have hre : acc ++ s :: rest = (acc ++ [s]) ++ rest := by simp
    rw [hre] at h
    have := ih (acc ++ [s]) h
    rw [this]
    simp

theorem sortByCreatedDesc_eq_of_sorted {l : List Saying} (h : SortedDesc l) :
    sortByCreatedDesc l = l := by
  unfold sortByCreatedDesc
  simpa using sortFold_eq_append l [] (by simpa using h)

/- Reachable-state invariants of the storage backends. -/

/-- Every stored history is sorted newest first. -/
def HistSorted (sayings : List (String × List Saying)) : Prop :=
  ∀ kv ∈ sayings, SortedDesc kv.2

/-- Coupling invariant of the two backends built by the same record sequence:
the sled default tree equals the memory history map, the caches coincide, and
every stored history is sorted. -/
def RecInv (m : MemoryStorage) (s : SledStorage) : Prop :=
  s.db = m.sayings ∧ s.global_cache = m.global_cache ∧ HistSorted m.sayings

theorem histSorted_save {sayings : List (String × List Saying)}
    (h : HistSorted sayings) (u : String) (l : List Saying) :
    HistSorted (aset sayings u (sortByCreatedDesc l)) := by
  intro kv hkv
  rcases mem_aset hkv with h1 | h1
  · rw [h1]
    exact sortedDesc_sortByCreatedDesc l
  · exact h kv h1

theorem recInv_step {m : MemoryStorage} {s : SledStorage} (h : RecInv m s)
    (u : String) (a : Saying) :
    RecInv (m.save_saying u a).1 (s.save_saying u a).1 := by
  rcases h with ⟨hdb, hc, hs⟩
  have hsortread :
      sortByCreatedDesc ((alookup m.sayings u).getD []) =
        (alookup m.sayings u).getD [] := by
    cases hl : alookup m.sayings u with
    | none => simp [sortByCreatedDesc]
    | some l =>
      simp only [Option.getD_some]
      exact sortByCreatedDesc_eq_of_sorted (hs (u, l) (alookup_mem hl))
  refine ⟨?_, ?_, ?_⟩
  · simp only [MemoryStorage.save_saying, SledStorage.save_saying, hdb,
      hsortread]
  · simp only [MemoryStorage.save_saying, SledStorage.save_saying, hc]
  · simp only [MemoryStorage.save_saying]
    exact histSorted_save hs u _

theorem recInv_run (rs : List (String × Saying)) :
    ∀ (m : MemoryStorage) (s : SledStorage), RecInv m s →
      RecInv (rs.foldl (fun st r => (st.save_saying r.1 r.2).1) m)
        (rs.foldl (fun st r => (st.save_saying r.1 r.2).1) s) := by
  induction rs with
  | nil => intro m s h; simpa using h
  | cons r rest ih =>
    intro m s h
    simpa using ih _ _ (recInv_step h r.1 r.2)

theorem recInv_records (rs : List (String × Saying)) :
    RecInv (memOfRecords rs) (sledOfRecords rs) :=
  recInv_run rs MemoryStorage.new SledStorage.new
    ⟨rfl, rfl, by intro kv hkv; simp [MemoryStorage.new] at hkv⟩

/-- Cache coverage: every non-LLM history entry has its cache key present in
the global cache.  This is the reason the fallback scans of
find_cached_saying never find anything the direct cache lookup missed. -/
def CacheCov (sayings : List (String × List Saying))
    (cache : List (CacheKey × Saying)) : Prop :=
  ∀ kv ∈ sayings, ∀ s ∈ kv.2, s.source ≠ SayingSource.LLM →
    (alookup cache (CacheKey.from_saying s)).isSome

theorem cacheCov_step {m : MemoryStorage}
    (h : CacheCov m.sayings m.global_cache) (u : String) (a : Saying) :
    CacheCov (m.save_saying u a).1.sayings (m.save_saying u a).1.global_cache := by
  intro kv hkv s hs hnl
  simp only [MemoryStorage.save_saying] at hkv
  have hcache :
      (m.save_saying u a).1.global_cache =
        if a.source ≠ SayingSource.LLM then
          aset m.global_cache (CacheKey.from_saying a) a
        else m.global_cache := rfl
  rcases mem_aset hkv with h1 | h1
  · -- the updated entry for user u
    have hs2 : s ∈ sortByCreatedDesc ((alookup m.sayings u).getD [] ++ [a]) := by
      rw [h1] at hs
      exact hs
    rcases (List.mem_append.1 (mem_sortByCreatedDesc.1 hs2)) with h2 | h2
    · -- s was already in the stored history of u
      cases hl : alookup m.sayings u with
      | none => rw [hl] at h2; simp at h2
      | some l =>
        rw [hl] at h2
        simp only [Option.getD_some] at h2
        have hold := h (u, l) (alookup_mem hl) s h2 hnl
        rw [hcache]
        by_cases hsrc : a.source ≠ SayingSource.LLM
        · rw [if_pos hsrc]
          exact alookup_isSome_aset _ _ hold
        · rw [if_neg hsrc]
          exact hold
    · -- s is the newly recorded saying
      have hsa : s = a := by simpa using h2
      rw [hcache, hsa]
      have hsrc : a.source ≠ SayingSource.LLM := hsa ▸ hnl
      rw [if_pos hsrc, alookup_aset]
      simp
  · -- an untouched entry
    have hold := h kv h1 s hs hnl
    rw [hcache]
    by_cases hsrc : a.source ≠ SayingSource.LLM
    · rw [if_pos hsrc]
      exact alookup_isSome_aset _ _ hold
    · rw [if_neg hsrc]
      exact hold

theorem cacheCov_run (rs : List (String × Saying)) :
    ∀ (m : MemoryStorage), CacheCov m.sayings m.global_cache →
      CacheCov (rs.foldl (fun st r => (st.save_saying r.1 r.2).1) m).sayings
        (rs.foldl (fun st r => (st.save_saying r.1 r.2).1) m).global_cache := by
  induction rs with
  | nil => intro m h; simpa using h
  | cons r rest ih =>
    intro m h
    simpa using ih _ (cacheCov_step h r.1 r.2)

theorem cacheCov_records (rs : List (String × Saying)) :
    CacheCov (memOfRecords rs).sayings (memOfRecords rs).global_cache :=
  cacheCov_run rs MemoryStorage.new
    (by intro kv hkv; simp [MemoryStorage.new] at hkv)

/- The fallback scans return nothing under cache coverage. -/

theorem findMatch_none_of {prompt : String} {preset_id : Option String}
    {l : List Saying} (h : ∀ s ∈ l, ¬ matchesCached prompt preset_id s) :
    findMatch prompt preset_id l = none := by
  induction l with
  | nil => rfl
  | cons s rest ih =>
    have hns := h s (List.mem_cons_self _ _)
    simp only [findMatch, if_neg hns]
    exact ih (fun t ht => h t (List.mem_cons_of_mem _ ht))

theorem noMatch_of_cov {sayings : List (String × List Saying)}
    {cache : List (CacheKey × Saying)} {prompt : String}
    {preset_id : Option String} (hcov : CacheCov sayings cache)
    (hmiss : alookup cache (CacheKey.new preset_id prompt) = none) :
    ∀ kv ∈ sayings, findMatch prompt preset_id kv.2 = none := by
  intro kv hkv
  refine findMatch_none_of ?_
  intro s hs hm
  rcases hm with ⟨hp, hpid, hnl⟩
  have := hcov kv hkv s hs hnl
  have hk : CacheKey.from_saying s = CacheKey.new preset_id prompt := by
    simp [CacheKey.from_saying, CacheKey.new, hp, hpid]
  rw [hk, hmiss] at this
  simp at this

theorem findInUsers_none_of {prompt : String} {preset_id : Option String}
    {users : List (String × List Saying)}
    (h : ∀ kv ∈ users, findMatch prompt preset_id kv.2 = none) :
    findInUsers prompt preset_id users = none := by
  induction users with
  | nil => rfl
  | cons kv rest ih =>
    have h1 := h kv (List.mem_cons_self _ _)
    cases kv with
    | mk k l =>
      simp only [findInUsers, h1]
      exact ih (fun p hp => h p (List.mem_cons_of_mem _ hp))

theorem findInDb_none_of {prompt : String} {preset_id : Option String}
    {users : List (String × List Saying)}
    (h : ∀ kv ∈ users, findMatch prompt preset_id kv.2 = none) :
    findInDb prompt preset_id users = none := by
  induction users with
  | nil => rfl
  | cons kv rest ih =>
    have h1 := h kv (List.mem_cons_self _ _)
    cases kv with
    | mk k l =>
      by_cases hk : k.startsWith "__"
      · simp only [findInDb, if_pos hk]
        exact ih (fun p hp => h p (List.mem_cons_of_mem _ hp))
      · simp only [findInDb, if_neg hk, h1]
        exact ih (fun p hp => h p (List.mem_cons_of_mem _ hp))

/- Backend agreement on reachable states. -/

theorem head?_take_one (l : List Saying) : (l.take 1).head? = l.head? := by
  cases l <;> simp

theorem get_sayings_agree (rs : List (String × Saying)) (u : String)
    (limit : Nat) :
    (sledOfRecords rs).get_sayings u limit =
      (memOfRecords rs).get_sayings u limit := by
  rcases recInv_records rs with ⟨hdb, _, hs⟩
  unfold SledStorage.get_sayings MemoryStorage.get_sayings
  rw [hdb]
  cases hl : alookup (memOfRecords rs).sayings u with
  | none => rfl
  | some l =>
    have hsl : SortedDesc l := hs (u, l) (alookup_mem hl)
    show (sortByCreatedDesc l).take limit = l.take limit
    rw [sortByCreatedDesc_eq_of_sorted hsl]

theorem get_last_agree (rs : List (String × Saying)) (u : String) :
    (sledOfRecords rs).get_last_saying u =
      (memOfRecords rs).get_last_saying u := by
  unfold SledStorage.get_last_saying
  rw [get_sayings_agree]
  unfold MemoryStorage.get_sayings MemoryStorage.get_last_saying
  cases hl : alookup (memOfRecords rs).sayings u with
  | none => rfl
  | some l => exact head?_take_one l

theorem mem_find_eq_cache (rs : List (String × Saying)) (prompt : String)
    (preset_id : Option String) :
    (memOfRecords rs).find_cached_saying prompt preset_id =
      alookup (memOfRecords rs).global_cache (CacheKey.new preset_id prompt) := by
  unfold MemoryStorage.find_cached_saying
  cases hl : alookup (memOfRecords rs).global_cache
      (CacheKey.new preset_id prompt) with
  | some c => rfl
  | none =>
    exact findInUsers_none_of (noMatch_of_cov (cacheCov_records rs) hl)

theorem sled_find_eq_cache (rs : List (String × Saying)) (prompt : String)
    (preset_id : Option String) :
    (sledOfRecords rs).find_cached_saying prompt preset_id =
      alookup (memOfRecords rs).global_cache (CacheKey.new preset_id prompt) := by
  rcases recInv_records rs with ⟨hdb, hc, _⟩
  unfold SledStorage.find_cached_saying
  rw [hdb, hc]
  cases hl : alookup (memOfRecords rs).global_cache
      (CacheKey.new preset_id prompt) with
  | some c => rfl
  | none =>
    exact findInDb_none_of (noMatch_of_cov (cacheCov_records rs) hl)

/- Concrete objects used in witnesses and counterexamples. -/

def cacheSayingP : Saying :=
  ⟨"id-c", "cached content", "p", 5, SayingSource.Cache, none⟩

def llmSayingP : Saying :=
  ⟨"id-l", "llm content", "p", 1, SayingSource.LLM, none⟩

def llmSayingA : Saying := ⟨"a", "ca", "pa", 5, SayingSource.LLM, none⟩

def llmSayingB : Saying := ⟨"b", "cb", "pb", 5, SayingSource.LLM, none⟩

def presetA : Preset :=
  ⟨"oracle", "Oracle", "d", [], "b", "l", "i", "sys", ["q1"]⟩

/-- Claim C7: constructing a Storage with an unsupported backend kind (SQLite,
Redis) or with a Sled backend whose initialization fails always yields a
working in-memory backend; Storage::new is total and every outcome is one of
the two implemented backends, so construction never fails for any
configuration. -/
theorem storage_new_never_fails :
    (∀ (cs : String) (init : Option SledStorage),
      Storage.new ⟨StorageType.SQLite, cs⟩ init =
        StorageImpl.Memory MemoryStorage.new) ∧
    (∀ (cs : String) (init : Option SledStorage),
      Storage.new ⟨StorageType.Redis, cs⟩ init =
        StorageImpl.Memory MemoryStorage.new) ∧
    (∀ (cs : String),
      Storage.new ⟨StorageType.Sled, cs⟩ none =
        StorageImpl.Memory MemoryStorage.new) ∧
    (∀ (cs : String) (s : SledStorage),
      Storage.new ⟨StorageType.Sled, cs⟩ (some s) = StorageImpl.Sled s) ∧
    (∀ (config : StorageConfig) (init : Option SledStorage),
      (∃ m, Storage.new config init = StorageImpl.Memory m) ∨
      (∃ s, Storage.new config init = StorageImpl.Sled s)) := by
  refine ⟨fun _ _ => rfl, fun _ _ => rfl, fun _ => rfl, fun _ _ => rfl, ?_⟩
  intro config init
  cases config with
  | mk t cs =>
    cases t with
    | Memory => exact Or.inl ⟨MemoryStorage.new, rfl⟩
    | SQLite => exact Or.inl ⟨MemoryStorage.new, rfl⟩
    | Redis => exact Or.inl ⟨MemoryStorage.new, rfl⟩
    | Sled =>
      cases init with
      | none => exact Or.inl ⟨MemoryStorage.new, rfl⟩
      | some s => exact Or.inr ⟨s, rfl⟩

/-- Claim C9: for every storage state and user, on both backends, lastResult
is absent exactly when history with limit 1 is empty, and otherwise returns
exactly the single entry of history with limit 1 (the newest entry). -/
theorem last_saying_consistent_with_history (mst : MemoryStorage)
    (sst : SledStorage) (u : String) :
    (mst.get_last_saying u = none ↔ mst.get_sayings u 1 = []) ∧
    (∀ s, mst.get_last_saying u = some s ↔ mst.get_sayings u 1 = [s]) ∧
    (sst.get_last_saying u = none ↔ sst.get_sayings u 1 = []) ∧
    (∀ s, sst.get_last_saying u = some s ↔ sst.get_sayings u 1 = [s]) := by
  refine ⟨?_, ?_, ?_, ?_⟩
  · unfold MemoryStorage.get_last_saying MemoryStorage.get_sayings
    cases alookup mst.sayings u with
    | none => simp
    | some l => cases l <;> simp
  · intro s
    unfold MemoryStorage.get_last_saying MemoryStorage.get_sayings
    cases alookup mst.sayings u with
    | none => simp
    | some l => cases l <;> simp
  · unfold SledStorage.get_last_saying SledStorage.get_sayings
    cases alookup sst.db u with
    | none => simp
    | some l =>
      show ((sortByCreatedDesc l).take 1).head? = none ↔
        (sortByCreatedDesc l).take 1 = []
      generalize sortByCreatedDesc l = sl
      cases sl <;> simp
  · intro s
    unfold SledStorage.get_last_saying SledStorage.get_sayings
    cases alookup sst.db u with
    | none => simp
    | some l =>
      show ((sortByCreatedDesc l).take 1).head? = some s ↔
        (sortByCreatedDesc l).take 1 = [s]
      generalize sortByCreatedDesc l = sl
      cases sl <;> simp

/-- Claim C6, amended: for every state reachable by record operations, every
user and every limit, history returns at most limit entries and is sorted
newest-first by createdAt with ties allowed (each entry created at or after
the next), on both backends.  The strict version of the claim fails because
the stable sort keeps two entries with equal createdAt next to each other. -/
theorem history_bounded_and_sorted (rs : List (String × Saying)) (u : String)
    (limit : Nat) :
    ((memOfRecords rs).get_sayings u limit).length ≤ limit ∧
    List.Pairwise (fun a b => b.created_at ≤ a.created_at)
      ((memOfRecords rs).get_sayings u limit) ∧
    ((sledOfRecords rs).get_sayings u limit).length ≤ limit ∧
    List.Pairwise (fun a b => b.created_at ≤ a.created_at)
      ((sledOfRecords rs).get_sayings u limit) := by
  rcases recInv_records rs with ⟨_, _, hs⟩
  have hlen : ((memOfRecords rs).get_sayings u limit).length ≤ limit := by
    unfold MemoryStorage.get_sayings
    cases alookup (memOfRecords rs).sayings u with
    | none => simp
    | some l =>
      show (l.take limit).length ≤ limit
      rw [List.length_take]
      exact min_le_left _ _
  have hsort : List.Pairwise (fun a b => b.created_at ≤ a.created_at)
      ((memOfRecords rs).get_sayings u limit) := by
    unfold MemoryStorage.get_sayings
    cases hl : alookup (memOfRecords rs).sayings u with
    | none => simp
    | some l =>
      have hsl : SortedDesc l := hs (u, l) (alookup_mem hl)
      show List.Pairwise _ (l.take limit)
      exact List.Pairwise.sublist (List.take_sublist _ _) hsl
  rw [get_sayings_agree]
  exact ⟨hlen, hsort, hlen, hsort⟩

/-- Claim C6, counterexample to the strict ordering: recording two sayings
with equal createdAt leaves a history whose adjacent entries are not in
strictly decreasing createdAt order. -/
theorem history_strict_sorted_cex :
    ((memOfRecords [("u", llmSayingA), ("u", llmSayingB)]).get_sayings "u" 10 =
      [llmSayingA, llmSayingB]) ∧
    ¬ List.Pairwise (fun a b : Saying => b.created_at < a.created_at)
      ((memOfRecords [("u", llmSayingA), ("u", llmSayingB)]).get_sayings
        "u" 10) := by
  constructor
  · rfl
  · intro h
    have := (List.pairwise_cons.1 h).1 llmSayingB (List.mem_cons_self _ _)
    simp [llmSayingA, llmSayingB] at this

/-- Claim C8, amended: for every sequence of record operations applied from
the empty state, the in-memory and the Sled backend return identical results
for record, lastResult, history and findCached; anyCached is excluded, since
the Sled scan can re-add history copies of entries already collected from the
global cache (its seen-key set starts empty) and the two backends then return
observably different lists. -/
theorem backends_agree (rs : List (String × Saying)) :
    (∀ (u : String) (a : Saying),
      ((memOfRecords rs).save_saying u a).2 =
        ((sledOfRecords rs).save_saying u a).2) ∧
    (∀ u : String,
      (memOfRecords rs).get_last_saying u =
        (sledOfRecords rs).get_last_saying u) ∧
    (∀ (u : String) (limit : Nat),
      (memOfRecords rs).get_sayings u limit =
        (sledOfRecords rs).get_sayings u limit) ∧
    (∀ (prompt : String) (preset_id : Option String),
      (memOfRecords rs).find_cached_saying prompt preset_id =
        (sledOfRecords rs).find_cached_saying prompt preset_id) := by
  refine ⟨fun u a => rfl, fun u => (get_last_agree rs u).symm,
    fun u limit => (get_sayings_agree rs u limit).symm, ?_⟩
  intro prompt preset_id
  rw [mem_find_eq_cache, sled_find_eq_cache]

/-- Claim C8, counterexample: after recording a single Cache-sourced saying,
anyCached with limit 5 returns one entry on the memory backend but the same
entry twice on the Sled backend, so the two backends are not observationally
equivalent even up to reordering. -/
theorem backends_anyCached_cex :
    (memOfRecords [("u", cacheSayingP)]).get_any_cached_sayings 5 =
      [cacheSayingP] ∧
    (sledOfRecords [("u", cacheSayingP)]).get_any_cached_sayings 5 =
      [cacheSayingP, cacheSayingP] ∧
    ((sledOfRecords [("u", cacheSayingP)]).get_any_cached_sayings 5).length ≠
      ((memOfRecords [("u", cacheSayingP)]).get_any_cached_sayings 5).length := by
  refine ⟨by decide, by decide, by decide⟩

/- Rate limiter lemmas. -/

theorem u32SubOne_eq {n : Nat} (h1 : 1 ≤ n) (h2 : n < 2 ^ 32) :
    u32SubOne n = n - 1 := by
  unfold u32SubOne
  omega

theorem checkRun_inWindow (cfg : RateLimitConfig) (u : String) :
    ∀ (ts : List Int) (st : List (String × RateLimitInfo)) (r : Nat) (R : Int),
      alookup st u = some ⟨u, r, R⟩ → ts.length ≤ r →
      (∀ t ∈ ts, ¬ (R < t)) →
      (checkRun cfg u st ts).2 = List.replicate ts.length true ∧
      alookup (checkRun cfg u st ts).1 u = some ⟨u, r - ts.length, R⟩ := by
  intro ts
  induction ts with
  | nil =>
    intro st r R h0 _ _
    simpa [checkRun] using h0
  | cons t rest ih =>
    intro st r R h0 hlen hwin
    have hnotexp : ¬ ((RateLimitInfo.mk u r R).reset_at < t) :=
      hwin t (List.mem_cons_self _ _)
    have hpos : 0 < r := by
      simp only [List.length_cons] at hlen
      omega
    have hstep : RateLimiter.check cfg st u t =
        (aset st u ⟨u, r - 1, R⟩, true) := by
      unfold RateLimiter.check
      rw [h0]
      simp only [if_neg hnotexp, if_pos hpos]
    have hlook : alookup (aset st u (RateLimitInfo.mk u (r - 1) R)) u =
        some ⟨u, r - 1, R⟩ := by
      rw [alookup_aset]
      simp
    have hrest := ih (aset st u ⟨u, r - 1, R⟩) (r - 1) R hlook
      (by simp only [List.length_cons] at hlen; omega)
      (fun x hx => hwin x (List.mem_cons_of_mem _ hx))
    constructor
    · show (checkRun cfg u st (t :: rest)).2 =
        true :: List.replicate rest.length true
      unfold checkRun
      rw [hstep]
      simpa using hrest.1
    · show alookup (checkRun cfg u st (t :: rest)).1 u =
        some ⟨u, r - (rest.length + 1), R⟩
      unfold checkRun
      rw [hstep]
      have heq : r - 1 - rest.length = r - (rest.length + 1) := by omega
      simpa [heq] using hrest.2

/-- Claim C2, amended: for every user with no window, every max with
1 <= max < 2 ^ 32 and every N with 1 <= N <= max, N consecutive check calls
whose times all fall inside the created window each return true and leave the
stored window with remaining = max - N; when N = max, the (N+1)th call inside
the same window returns false and does not mutate the store.  The original
claim asserted the false (N+1)th result for every N <= max, which fails for
N < max since the (N+1)th call still finds remaining > 0 and returns true. -/
theorem check_quota_window (cfg : RateLimitConfig) (u : String) (t : Int)
    (ts : List Int) (st : List (String × RateLimitInfo))
    (h0 : alookup st u = none) (h1 : 1 ≤ cfg.max_requests)
    (hw : cfg.max_requests < 2 ^ 32)
    (h2 : ts.length + 1 ≤ cfg.max_requests)
    (h3 : ∀ x ∈ ts, ¬ (t + asI64 cfg.window_seconds < x)) :
    (checkRun cfg u st (t :: ts)).2 = List.replicate (ts.length + 1) true ∧
    alookup (checkRun cfg u st (t :: ts)).1 u =
      some ⟨u, cfg.max_requests - (ts.length + 1),
        t + asI64 cfg.window_seconds⟩ ∧
    (ts.length + 1 = cfg.max_requests → ∀ t2 : Int,
      ¬ (t + asI64 cfg.window_seconds < t2) →
      RateLimiter.check cfg (checkRun cfg u st (t :: ts)).1 u t2 =
        ((checkRun cfg u st (t :: ts)).1, false)) := by
  have hstep : RateLimiter.check cfg st u t =
      (aset st u ⟨u, cfg.max_requests - 1, t + asI64 cfg.window_seconds⟩,
       true) := by
    unfold RateLimiter.check
    rw [h0, u32SubOne_eq h1 hw]
  have hlook : alookup
      (aset st u (RateLimitInfo.mk u (cfg.max_requests - 1)
        (t + asI64 cfg.window_seconds))) u =
      some ⟨u, cfg.max_requests - 1, t + asI64 cfg.window_seconds⟩ := by
    rw [alookup_aset]
    simp
  have hrun := checkRun_inWindow cfg u ts
    (aset st u ⟨u, cfg.max_requests - 1, t + asI64 cfg.window_seconds⟩)
    (cfg.max_requests - 1) (t + asI64 cfg.window_seconds) hlook
    (by omega) h3
  have hshape : checkRun cfg u st (t :: ts) =
      ((checkRun cfg u
          (aset st u ⟨u, cfg.max_requests - 1, t + asI64 cfg.window_seconds⟩)
          ts).1,
       true ::
        (checkRun cfg u
          (aset st u ⟨u, cfg.max_requests - 1, t + asI64 cfg.window_seconds⟩)
          ts).2) := by
    simp only [checkRun]
    rw [hstep]
  have hfinal : alookup (checkRun cfg u st (t :: ts)).1 u =
      some ⟨u, cfg.max_requests - (ts.length + 1),
        t + asI64 cfg.window_seconds⟩ := by
    rw [hshape]
    have heq : cfg.max_requests - 1 - ts.length =
        cfg.max_requests - (ts.length + 1) := by omega
    simpa [heq] using hrun.2
  refine ⟨?_, hfinal, ?_⟩
  · rw [hshape, List.replicate_succ]
    exact congrArg (List.cons true) hrun.1
  · intro hN t2 ht2
    have hzero : cfg.max_requests - (ts.length + 1) = 0 := by omega
    rw [hzero] at hfinal
    unfold RateLimiter.check
    rw [hfinal]
    simp only [if_neg ht2]
    simp

/-- Claim C2, counterexample to the original statement: with max = 2 and
N = 1 (so 1 <= N <= max), the (N+1)th call inside the same window returns
true, not false, because remaining is still 1. -/
theorem check_quota_window_cex :
    (RateLimiter.check ⟨2, 60⟩ [] "u" 0).2 = true ∧
    (RateLimiter.check ⟨2, 60⟩
      (RateLimiter.check ⟨2, 60⟩ [] "u" 0).1 "u" 0).2 = true := by
  constructor <;> decide

/-- Claim C2, witness: max = 2, two calls at time 0 both return true, and the
third call at time 0 returns false leaving the store untouched. -/
theorem check_quota_window_witness :
    (checkRun ⟨2, 60⟩ "u" [] [0, 0]).2 = List.replicate 2 true ∧
    RateLimiter.check ⟨2, 60⟩ (checkRun ⟨2, 60⟩ "u" [] [0, 0]).1 "u" 0 =
      ((checkRun ⟨2, 60⟩ "u" [] [0, 0]).1, false) := by
  have h := check_quota_window ⟨2, 60⟩ "u" 0 [0] [] rfl (by decide)
    (by decide) (by decide) (by decide)
  exact ⟨h.1, h.2.2 (by decide) 0 (by decide)⟩

/-- Claim C4: for every user whose stored window has reset_at in the past,
the next check call returns true and replaces the window with a fresh one
holding remaining = max - 1 and reset_at = now + window_seconds, regardless
of the prior remaining value (the hypotheses put no constraint on it). -/
theorem check_expired_resets (cfg : RateLimitConfig)
    (st : List (String × RateLimitInfo)) (u : String) (info : RateLimitInfo)
    (now : Int) (h0 : alookup st u = some info) (h1 : info.reset_at < now)
    (h2 : 1 ≤ cfg.max_requests) (h3 : cfg.max_requests < 2 ^ 32) :
    RateLimiter.check cfg st u now =
      (aset st u ⟨u, cfg.max_requests - 1, now + asI64 cfg.window_seconds⟩,
       true) ∧
    alookup (RateLimiter.check cfg st u now).1 u =
      some ⟨u, cfg.max_requests - 1, now + asI64 cfg.window_seconds⟩ := by
  have hc : RateLimiter.check cfg st u now =
      (aset st u ⟨u, cfg.max_requests - 1, now + asI64 cfg.window_seconds⟩,
       true) := by
    unfold RateLimiter.check
    rw [h0]
    simp only [if_pos h1]
    rw [u32SubOne_eq h2 h3]
  refine ⟨hc, ?_⟩
  rw [hc, alookup_aset]
  simp

/-- Claim C4, witness: a window with remaining 0 that expired at time 10 is
replaced at time 20 by a fresh window with remaining max - 1 = 2. -/
theorem check_expired_resets_witness :
    RateLimiter.check ⟨3, 60⟩ [("u", ⟨"u", 0, 10⟩)] "u" 20 =
      (aset [("u", ⟨"u", 0, 10⟩)] "u" ⟨"u", 3 - 1, 20 + asI64 60⟩, true) ∧
    alookup (RateLimiter.check ⟨3, 60⟩ [("u", ⟨"u", 0, 10⟩)] "u" 20).1 "u" =
      some ⟨"u", 3 - 1, 20 + asI64 60⟩ :=
  check_expired_resets ⟨3, 60⟩ [("u", ⟨"u", 0, 10⟩)] "u" ⟨"u", 0, 10⟩ 20
    (by decide) (by decide) (by decide) (by decide)

/- Quota bound invariant of the rate limiter store. -/

/-- Every stored window respects the quota bound. -/
def RLBound (max : Nat) (store : List (String × RateLimitInfo)) : Prop :=
  ∀ u info, alookup store u = some info → info.remaining_requests ≤ max

theorem rlBound_aset {max : Nat} {store : List (String × RateLimitInfo)}
    (hb : RLBound max store) {u0 : String} {info0 : RateLimitInfo}
    (h : info0.remaining_requests ≤ max) : RLBound max (aset store u0 info0) := by
  intro u info hl
  rw [alookup_aset] at hl
  by_cases he : u0 = u
  · rw [if_pos he] at hl
    injection hl with h2
    rw [← h2]
    exact h
  · rw [if_neg he] at hl
    exact hb u info hl

theorem rlBound_step (cfg : RateLimitConfig) (h1 : 1 ≤ cfg.max_requests)
    (h2 : cfg.max_requests < 2 ^ 32)
    {store : List (String × RateLimitInfo)}
    (hb : RLBound cfg.max_requests store) (op : RLOp) :
    RLBound cfg.max_requests (applyRLOp cfg store op) := by
  have hsub : u32SubOne cfg.max_requests ≤ cfg.max_requests := by
    rw [u32SubOne_eq h1 h2]
    omega
  cases op with
  | check u0 t =>
    show RLBound cfg.max_requests (RateLimiter.check cfg store u0 t).1
    unfold RateLimiter.check
    cases hl : alookup store u0 with
    | none => exact rlBound_aset hb hsub
    | some info =>
      by_cases hexp : info.reset_at < t
      · simp only [if_pos hexp]
        exact rlBound_aset hb hsub
      · by_cases hrem : 0 < info.remaining_requests
        · simp only [if_neg hexp, if_pos hrem]
          have hble := hb u0 info hl
          refine rlBound_aset hb ?_
          show info.remaining_requests - 1 ≤ cfg.max_requests
          omega
        · simp only [if_neg hexp, if_neg hrem]
          exact hb
  | reset u0 t =>
    show RLBound cfg.max_requests (RateLimiter.reset cfg store u0 t)
    unfold RateLimiter.reset
    exact rlBound_aset hb le_rfl

theorem rlBound_run (cfg : RateLimitConfig) (h1 : 1 ≤ cfg.max_requests)
    (h2 : cfg.max_requests < 2 ^ 32) :
    ∀ (ops : List RLOp) (store : List (String × RateLimitInfo)),
      RLBound cfg.max_requests store →
      RLBound cfg.max_requests (ops.foldl (applyRLOp cfg) store) := by
  intro ops
  induction ops with
  | nil => intro store hb; simpa using hb
  | cons op rest ih =>
    intro store hb
    simpa using ih _ (rlBound_step cfg h1 h2 hb op)

/-- Claim C10: with max_requests at least 1 (and within the u32 range), the
unsigned subtraction max_requests - 1 in check does not wrap and every window
stored by any sequence of check and reset calls keeps
remaining_requests <= max_requests; with max_requests = 0 the first check for
a user underflows the u32 subtraction and stores remaining 2 ^ 32 - 1. -/
theorem remaining_le_max_and_underflow :
    (∀ (cfg : RateLimitConfig) (ops : List RLOp) (u : String)
        (info : RateLimitInfo), 1 ≤ cfg.max_requests →
        cfg.max_requests < 2 ^ 32 →
        alookup (runRLOps cfg ops) u = some info →
        info.remaining_requests ≤ cfg.max_requests) ∧
    (∀ n : Nat, 1 ≤ n → n < 2 ^ 32 → u32SubOne n = n - 1) ∧
    (∀ (w : Nat) (u : String) (now : Int),
        RateLimiter.check ⟨0, w⟩ [] u now =
          ([(u, ⟨u, 2 ^ 32 - 1, now + asI64 w⟩)], true)) := by
  refine ⟨?_, fun n hn1 hn2 => u32SubOne_eq hn1 hn2, ?_⟩
  · intro cfg ops u info h1 h2 hl
    exact rlBound_run cfg h1 h2 ops []
      (by intro u0 i0 h; simp [alookup] at h) u info hl
  · intro w u now
    have h0 : u32SubOne 0 = 2 ^ 32 - 1 := by decide
    show (aset ([] : List (String × RateLimitInfo)) u
        ⟨u, u32SubOne 0, now + asI64 w⟩, true) = _
    rw [h0]
    rfl

/-- Claim C10, witness: with max = 1 one check leaves remaining 0 <= 1, and
with max = 0 the first check stores the wrapped value 4294967295. -/
theorem remaining_le_max_witness :
    (RateLimitInfo.mk "u" 0 (asI64 60)).remaining_requests ≤ 1 ∧
    RateLimiter.check ⟨0, 60⟩ [] "v" 7 =
      ([("v", ⟨"v", 2 ^ 32 - 1, 7 + asI64 60⟩)], true) :=
  ⟨remaining_le_max_and_underflow.1 ⟨1, 60⟩ [RLOp.check "u" 0] "u"
      ⟨"u", 0, asI64 60⟩ (by decide) (by decide) (by decide),
    remaining_le_max_and_underflow.2.2 60 "v" 7⟩

/-- Claim C5: getOrSelectPreset returns the preset of an existing unexpired
pin unchanged; otherwise it draws a preset from the catalog (the uniform
random draw abstracted as an arbitrary index pick into the catalog), stores a
new pin keyed by the user with expires_at equal to the supplied window reset
time, and returns that preset; and repeated calls for the same user while
now is before expires_at return the identical preset without changing the
state. -/
theorem preset_pin_sticky (ps : Presets) (user : String)
    (reset_at now : Int) (pick : Nat) :
    (∀ sel, alookup ps.selections user = some sel → now < sel.expires_at →
      ps.get_or_select_preset user reset_at now pick = some (sel.preset, ps)) ∧
    ((∀ sel, alookup ps.selections user = some sel → sel.expires_at ≤ now) →
      ∀ p, ps.presets.get? (pick % ps.presets.length) = some p →
        ps.get_or_select_preset user reset_at now pick =
          some (p,
            { ps with
              selections := aset ps.selections user ⟨p, now, reset_at⟩ }) ∧
        p ∈ ps.presets ∧
        alookup (aset ps.selections user ⟨p, now, reset_at⟩) user =
          some ⟨p, now, reset_at⟩ ∧
        (∀ (reset2 now2 : Int) (pick2 : Nat), now2 < reset_at →
          Presets.get_or_select_preset
            { ps with
              selections := aset ps.selections user ⟨p, now, reset_at⟩ }
            user reset2 now2 pick2 =
            some (p,
              { ps with
                selections := aset ps.selections user ⟨p, now, reset_at⟩ }))) := by
  constructor
  · intro sel hsel hlt
    unfold Presets.get_or_select_preset
    rw [hsel]
    simp only [if_pos hlt]
  · intro hexp p hp
    have hnew : ps.selectNew user reset_at now pick =
        some (p,
          { ps with
            selections := aset ps.selections user ⟨p, now, reset_at⟩ }) := by
      unfold Presets.selectNew Presets.random_preset
      rw [hp]
    have hmain : ps.get_or_select_preset user reset_at now pick =
        some (p,
          { ps with
            selections := aset ps.selections user ⟨p, now, reset_at⟩ }) := by
      unfold Presets.get_or_select_preset
      cases hl : alookup ps.selections user with
      | none => exact hnew
      | some sel =>
        show (if now < sel.expires_at then some (sel.preset, ps)
          else ps.selectNew user reset_at now pick) = _
        rw [if_neg (not_lt.2 (hexp sel hl))]
        exact hnew
    have hpin : alookup (aset ps.selections user
        (PresetSelection.mk p now reset_at)) user =
        some ⟨p, now, reset_at⟩ := by
      rw [alookup_aset]
      simp
    refine ⟨hmain, List.get?_mem hp, hpin, ?_⟩
    intro reset2 now2 pick2 hlt2
    unfold Presets.get_or_select_preset
    show (match alookup (aset ps.selections user
        (PresetSelection.mk p now reset_at)) user with
      | some selection =>
        if now2 < selection.expires_at then
          some (selection.preset,
            { ps with
              selections := aset ps.selections user ⟨p, now, reset_at⟩ })
        else Presets.selectNew
          { ps with
            selections := aset ps.selections user ⟨p, now, reset_at⟩ }
          user reset2 now2 pick2
      | none => Presets.selectNew
          { ps with
            selections := aset ps.selections user ⟨p, now, reset_at⟩ }
          user reset2 now2 pick2) = _
    rw [hpin]
    simp only [if_pos hlt2]

/-- One-preset catalog with no selections, used as a witness state. -/
def psOne : Presets := ⟨[presetA], []⟩

/-- The witness state after pinning presetA for user u until time 100. -/
def psOnePinned : Presets := ⟨[presetA], [("u", ⟨presetA, 0, 100⟩)]⟩

/-- Claim C5, witness: with an empty selection map the call pins presetA with
expires_at equal to the window reset time 100, and a repeated call at time 10
(before expiry) with a different reset time and pick returns the same preset
and the same state. -/
theorem preset_pin_sticky_witness :
    psOne.get_or_select_preset "u" 100 0 0 = some (presetA, psOnePinned) ∧
    psOnePinned.get_or_select_preset "u" 55 10 3 =
      some (presetA, psOnePinned) := by
  have h := (preset_pin_sticky psOne "u" 100 0 0).2
    (by intro sel hsel; simp [psOne, alookup] at hsel)
    presetA rfl
  exact ⟨h.1, h.2.2.2 55 10 3 (by decide)⟩

/-- Claim C1: starting from a state with no entry under the cache key of the
recorded saying and no matching non-LLM entry in any history, record followed
by findCached with the same prompt and preset id returns the recorded entry
exactly when its source is not LLM; in particular an LLM-sourced recording is
not found. -/
theorem record_find_cached_iff (st : MemoryStorage) (u : String) (a : Saying)
    (hc : alookup st.global_cache (CacheKey.new a.preset_id a.prompt) = none)
    (hh : ∀ kv ∈ st.sayings, ∀ t ∈ kv.2,
      ¬ matchesCached a.prompt a.preset_id t) :
    ((st.save_saying u a).1.find_cached_saying a.prompt a.preset_id = some a ↔
      a.source ≠ SayingSource.LLM) := by
  by_cases hsrc : a.source ≠ SayingSource.LLM
  · have hcache : (st.save_saying u a).1.global_cache =
        aset st.global_cache (CacheKey.from_saying a) a := by
      show (if a.source ≠ SayingSource.LLM then
          aset st.global_cache (CacheKey.from_saying a) a
        else st.global_cache) = _
      rw [if_pos hsrc]
    have hfind : (st.save_saying u a).1.find_cached_saying a.prompt
        a.preset_id = some a := by
      unfold MemoryStorage.find_cached_saying
      rw [hcache]
      have hkey : CacheKey.from_saying a = CacheKey.new a.preset_id a.prompt :=
        rfl
      rw [hkey, alookup_aset]
      simp
    exact ⟨fun _ => hsrc, fun _ => hfind⟩
  · have hllm : a.source = SayingSource.LLM := not_not.1 hsrc
    have hcache : (st.save_saying u a).1.global_cache = st.global_cache := by
      show (if a.source ≠ SayingSource.LLM then
          aset st.global_cache (CacheKey.from_saying a) a
        else st.global_cache) = _
      rw [if_neg hsrc]
    have hfind : (st.save_saying u a).1.find_cached_saying a.prompt
        a.preset_id = none := by
      unfold MemoryStorage.find_cached_saying
      rw [hcache, hc]
      refine findInUsers_none_of ?_
      intro kv hkv
      rcases mem_aset hkv with h1 | h1
      · refine findMatch_none_of ?_
        intro t ht
        rw [h1] at ht
        rcases List.mem_append.1 (mem_sortByCreatedDesc.1 ht) with h2 | h2
        · cases hl : alookup st.sayings u with
          | none => rw [hl] at h2; simp at h2
          | some l =>
            rw [hl] at h2
            simp only [Option.getD_some] at h2
            exact hh (u, l) (alookup_mem hl) t h2
        · have hta : t = a := by simpa using h2
          rw [hta]
          intro hm
          exact hm.2.2 hllm
      · exact findMatch_none_of (hh kv h1)
    rw [hfind]
    constructor
    · intro h
      cases h
    · intro h
      exact absurd h hsrc

/-- Claim C1, witness: recording a Cache-sourced saying into the empty store
makes findCached with the same prompt and preset id return it, matching the
non-LLM side of the equivalence. -/
theorem record_find_cached_iff_witness :
    ((MemoryStorage.new.save_saying "u" cacheSayingP).1.find_cached_saying
      cacheSayingP.prompt cacheSayingP.preset_id = some cacheSayingP ↔
      cacheSayingP.source ≠ SayingSource.LLM) :=
  record_find_cached_iff MemoryStorage.new "u" cacheSayingP rfl
    (by intro kv hkv; simp [MemoryStorage.new] at hkv)

/-- Claim C3, amended: in the cooldown branch (rate limit info exists with
remaining 0), the chosen result, whether the last saying of the user or the
head of the anyCached sample, is returned verbatim with its source field
unchanged (the response source string is the display of the stored source,
with no re-tagging to Cached), and the served result is not persisted: the
storage comes back unchanged. -/
theorem cooldown_serves_unmodified (rl : List (String × RateLimitInfo))
    (storage : MemoryStorage) (user : String) (resp : SayingResponse)
    (st2 : MemoryStorage)
    (h : cooldownServe rl storage user = some (resp, st2)) :
    st2 = storage ∧
    ((∃ s, storage.get_last_saying user = some s ∧
        resp = SayingResponse.from_saying s ∧ resp.source = s.source.toStr) ∨
     (storage.get_last_saying user = none ∧
      ∃ s, (storage.get_any_cached_sayings 1).head? = some s ∧
        resp = SayingResponse.from_saying s ∧
        resp.source = s.source.toStr)) := by
  unfold cooldownServe at h
  by_cases hrl : isRateLimited rl user = true
  · rw [if_pos hrl] at h
    cases hlast : storage.get_last_saying user with
    | some s =>
      rw [hlast] at h
      simp only [Option.some.injEq, Prod.mk.injEq] at h
      obtain ⟨h1, h2⟩ := h
      subst h1
      subst h2
      exact ⟨rfl, Or.inl ⟨s, rfl, rfl, rfl⟩⟩
    | none =>
      rw [hlast] at h
      cases hany : storage.get_any_cached_sayings 1 with
      | nil => rw [hany] at h; cases h
      | cons s rest =>
        rw [hany] at h
        simp only [Option.some.injEq, Prod.mk.injEq] at h
        obtain ⟨h1, h2⟩ := h
        subst h1
        subst h2
        exact ⟨rfl, Or.inr ⟨rfl, s, rfl, rfl, rfl⟩⟩
  · rw [if_neg hrl] at h
    cases h

/-- State with user u rate limited (remaining 0 until time 100). -/
def rlCooldown : List (String × RateLimitInfo) := [("u", ⟨"u", 0, 100⟩)]

/-- Storage whose only entry is an LLM-sourced saying of user u. -/
def storageLLM : MemoryStorage := memOfRecords [("u", llmSayingP)]

/-- Claim C3, counterexample to the original statement: in the cooldown
branch the served response carries source string llm, the unchanged display
of the stored LLM source, not cache, so the result is not tagged as Cached
before being returned. -/
theorem cooldown_no_cache_tag_cex :
    cooldownServe rlCooldown storageLLM "u" =
      some (⟨"id-l", "llm content", 1, "llm"⟩, storageLLM) ∧
    ("llm" : String) ≠ "cache" := by
  constructor
  · rfl
  · decide

/-- Claim C3, witness: the amended statement applied to the concrete cooldown
state serving the LLM-sourced last saying. -/
theorem cooldown_serves_unmodified_witness :
    storageLLM = storageLLM ∧
    ((∃ s, storageLLM.get_last_saying "u" = some s ∧
        SayingResponse.from_saying llmSayingP = SayingResponse.from_saying s ∧
        (SayingResponse.from_saying llmSayingP).source = s.source.toStr) ∨
     (storageLLM.get_last_saying "u" = none ∧
      ∃ s, (storageLLM.get_any_cached_sayings 1).head? = some s ∧
        SayingResponse.from_saying llmSayingP = SayingResponse.from_saying s ∧
        (SayingResponse.from_saying llmSayingP).source = s.source.toStr)) :=
  cooldown_serves_unmodified rlCooldown storageLLM "u"
    (SayingResponse.from_saying llmSayingP) storageLLM rfl
